import Mathlib

/-!
Shallow embedding of `server/api/utils/projects/follower.py`: the projects
follower `Member`, covering the leader/follower synchronization cycle
(`_sync_projects` with its import pass, archive pass and cursor update) and the
request-routing operations (`create_project`, `store_project`, `get_project`,
`list_projects`).

Datetimes are modelled as integers (seconds relative to the Unix epoch, which
is 0; values may be negative).  The Local Project Store is a list of project
rows keyed by name.  External collaborators that are not part of the sources
(the crud layer, the Background Task Registry, the Leader Client, the shared
request-provenance helper) are modelled from the spec as explicit parameters or
small definitions, each marked in its doc comment.
-/

namespace Follower

/-- Modelled from the spec: the project state enum
(`mlrun.common.schemas.ProjectState`, not part of the sources).  The spec names
`online` and `archived` and treats states such as archived/deleted as
"terminal" (no further leader-driven activity expected), while in-flight states
(creating/deleting) are non-terminal; its worked example treats `online` as
non-terminal. -/
inductive ProjectState where
  | unknown
  | creating
  | deleting
  | online
  | archived
  | deleted
deriving DecidableEq, Repr

/-- Modelled from the spec: `ProjectState.terminal_states()` — the subset of
states after which no further leader-driven activity is expected. -/
def ProjectState.terminal_states : List ProjectState :=
  [ProjectState.archived, ProjectState.deleted]

structure ProjectMetadata where
  name : String
  labels : List String
deriving DecidableEq, Repr

structure ProjectSpec where
  description : String
deriving DecidableEq, Repr

structure ProjectStatus where
  state : ProjectState
deriving DecidableEq, Repr

/-- A project record: metadata (with the identifying name), free-form spec,
and status (the state enum). -/
structure Project where
  metadata : ProjectMetadata
  spec : ProjectSpec
  status : ProjectStatus
deriving DecidableEq, Repr

/-- The Local Project Store: a list of project rows; the project name is the
key (unique by the data-model invariant). -/
abbrev Store := List Project

/-- Row lookup by project name (the first row carrying that name). -/
def Store.lookup (s : Store) (n : String) : Option Project :=
  s.find? (fun p => p.metadata.name == n)

/-- Modelled from the spec: the Local Store crud `store_project` (not part of
the sources) — upsert by name with full replace semantics. -/
def Store.store_project (s : Store) (name : String) (p : Project) : Store :=
  if s.any (fun q => q.metadata.name == name) then
    s.map (fun q => if q.metadata.name == name then p else q)
  else
    s ++ [p]

/-- Modelled from the spec: the Local Store crud `patch_project` (not part of
the sources) — merge-patch of the named row.  The Synchronizer always passes
the full dict of the (stale) record, so the merged row is exactly the passed
record; a patch never deletes a row and never creates one. -/
def Store.patch_project (s : Store) (name : String) (p : Project) : Store :=
  s.map (fun q => if q.metadata.name == name then p else q)

/-- Modelled from the spec: the Local Store crud `list_projects` in the
default (full) format, as called at the start of a sync cycle. -/
def Store.list_projects_full (s : Store) : List Project := s

/-- The error taxonomy surfaced by the routed operations
(`mlrun.errors`, external). -/
inductive MLRunError where
  | notFound
  | accessDenied
  | conflict
  | invalidArgument
deriving DecidableEq, Repr

/-- Modelled from the spec: Local Store crud `get_project` — the named row, or
a not-found error. -/
def crud_get_project (s : Store) (name : String) : Except MLRunError Project :=
  match s.lookup name with
  | some p => Except.ok p
  | none => Except.error MLRunError.notFound

/-- Modelled from the spec: background deletion task kind tag
`project_deletion`, parameterized by project name. -/
def BackgroundTaskKinds.project_deletion (name : String) : String :=
  "project.deletion." ++ name

/-- Modelled from the spec: background deletion task kind tag
`project_deletion_wrapper`, parameterized by project name. -/
def BackgroundTaskKinds.project_deletion_wrapper (name : String) : String :=
  "project.deletion.wrapper." ++ name

/-- `Member._project_deletion_background_task_exists`: whether the Background
Task Registry (modelled as the predicate `activeTask` on task kinds) has an
active deletion task of either kind for the given project name. -/
def project_deletion_background_task_exists (activeTask : String → Bool)
    (project_name : String) : Bool :=
  [BackgroundTaskKinds.project_deletion_wrapper project_name,
   BackgroundTaskKinds.project_deletion project_name].any activeTask

/-- `Member._store_projects_from_leader`: the import pass of a sync cycle.
A leader project is skipped when its state is non-terminal and its name is not
among the names listed from the store at the start of the cycle, or when a
background deletion task is active for its name; every other leader project is
stored (full replace). -/
def store_projects_from_leader (activeTask : String → Bool) (s : Store)
    (db_projects : List Project) (leader_projects : List Project) : Store :=
  let db_projects_names := db_projects.map (fun p => p.metadata.name)
  let filtered_projects := leader_projects.filter (fun lp =>
    !((!(ProjectState.terminal_states.contains lp.status.state)
        && !(db_projects_names.contains lp.metadata.name))
      || project_deletion_background_task_exists activeTask lp.metadata.name))
  filtered_projects.foldl (fun st p => st.store_project p.metadata.name p) s

/-- The record as mutated by the archive pass just before patching: the status
state is set to `archived`, everything else is kept. -/
def setArchived (p : Project) : Project :=
  { p with status := { p.status with state := ProjectState.archived } }

/-- `Member._archive_projects_missing_from_leader`: the archive pass of a full
sync.  The Python code keys `projects_to_archive` by name in a dict; under the
store's unique-name invariant this equals the list filter used here.  A crud
patch that raises is caught and the loop continues; raising is modelled by the
oracle `patchFails`. -/
def archive_projects_missing_from_leader (patchFails : String → Bool) (s : Store)
    (db_projects : List Project) (leader_projects : List Project) : Store :=
  let leader_project_names := leader_projects.map (fun p => p.metadata.name)
  let projects_to_archive := db_projects.filter
    (fun p => !(leader_project_names.contains p.metadata.name))
  projects_to_archive.foldl (fun st p =>
    if patchFails p.metadata.name then st
    else st.patch_project p.metadata.name (setArchived p)) s

/-- `Member._update_latest_synced_datetime`: store the leader-reported cursor,
floored at the epoch (0); a null `latest_updated_at` leaves the cursor
untouched. -/
def update_latest_synced_datetime (synced_until : Option Int)
    (latest_updated_at : Option Int) : Option Int :=
  match latest_updated_at with
  | none => synced_until
  | some t => some (if t < 0 then 0 else t)

/-- The Synchronizer's environment: the Leader Client list call (its argument
is the optional updated-after filter; the session argument is omitted because
the code always passes the fixed `self._sync_session`), the Background Task
Registry, and the crud patch failure oracle. -/
structure SyncEnv where
  leader_list_projects : Option Int → Except String (List Project × Option Int)
  activeTask : String → Bool
  patchFails : String → Bool

/-- The Synchronizer's mutable state: the Local Store contents and the
`synced_until` cursor (`self._synced_until_datetime`, initially `none`). -/
structure SyncState where
  store : Store
  synced_until : Option Int
deriving DecidableEq, Repr

/-- `Member._list_projects_from_leader`: the filtered call, with one
unfiltered retry on any error. -/
def list_projects_from_leader (env : SyncEnv) (synced_until : Option Int) :
    Except String (List Project × Option Int) :=
  match env.leader_list_projects synced_until with
  | Except.ok r => Except.ok r
  | Except.error _ => env.leader_list_projects none

/-- `Member._sync_projects`: one sync cycle — leader fetch, local listing,
then import pass, archive pass (full sync only), cursor update.  A leader fetch
error aborts the cycle with no state change. -/
def sync_projects (env : SyncEnv) (st : SyncState) (full_sync : Bool) :
    Except String SyncState :=
  match list_projects_from_leader env st.synced_until with
  | Except.error e => Except.error e
  | Except.ok (leader_projects, latest_updated_at) =>
    let db_projects := Store.list_projects_full st.store
    let s1 := store_projects_from_leader env.activeTask st.store db_projects
      leader_projects
    let s2 := if full_sync then
        archive_projects_missing_from_leader env.patchFails s1 db_projects
          leader_projects
      else s1
    Except.ok { store := s2,
                synced_until := update_latest_synced_datetime st.synced_until
                  latest_updated_at }

/-- Modelled from the spec: `server.api.utils.helpers.is_request_from_leader`
(not part of the sources) — whether the request's projects role names the
configured leader. -/
def is_request_from_leader (projects_role : Option String)
    (leader_name : String) : Bool :=
  projects_role == some leader_name

/-- The opaque record produced by the Leader Client's
`format_as_leader_project` formatter. -/
structure LeaderProjectView where
  payload : String
deriving DecidableEq, Repr

/-- The projects output formats relevant to the follower's `list_projects`. -/
inductive ProjectsFormat where
  | full
  | name_only
  | leader
deriving DecidableEq, Repr

/-- One entry of a projects listing, in its output format. -/
inductive ProjectsOutputEntry where
  | full (p : Project)
  | name_only (n : String)
  | leader (v : LeaderProjectView)
deriving DecidableEq, Repr

/-- Modelled from the spec: Local Store crud `list_projects` with an output
format.  The leader format is produced by the Member itself from full records,
so the crud returns full records for it. -/
def crud_list_projects (s : Store) (format_ : ProjectsFormat) :
    List ProjectsOutputEntry :=
  match format_ with
  | ProjectsFormat.name_only =>
    s.map (fun p => ProjectsOutputEntry.name_only p.metadata.name)
  | _ => s.map (fun p => ProjectsOutputEntry.full p)

/-- `Member.list_projects`: leader-format output is only honored when the
request is attributable to the leader (otherwise access is denied); when
honored, the crud output is re-shaped per-project through the Leader Client's
formatter `fmt`; otherwise the crud output in the requested format is
returned. -/
def Member.list_projects (fmt : Project → LeaderProjectView)
    (leader_name : String) (s : Store) (format_ : ProjectsFormat)
    (projects_role : Option String) :
    Except MLRunError (List ProjectsOutputEntry) :=
  if format_ == ProjectsFormat.leader
      && !(is_request_from_leader projects_role leader_name) then
    Except.error MLRunError.accessDenied
  else
    let projects_output := crud_list_projects s format_
    if format_ == ProjectsFormat.leader then
      Except.ok (projects_output.map (fun o =>
        match o with
        | ProjectsOutputEntry.full p => ProjectsOutputEntry.leader (fmt p)
        | o => o))
    else
      Except.ok projects_output

/-- The Leader Client's write interface.  A leader round trip may reflect back
into the Local Store, so each call returns the store as visible afterwards;
`create_project` also returns the is-running-in-background flag. -/
structure LeaderClient where
  create_project : Store → Project → Bool × Store
  update_project : Store → String → Project → Store

/-- Modelled from the spec: Local Store crud `create_project` — conflict if
the name already exists, otherwise the row is appended. -/
def crud_create_project (s : Store) (p : Project) : Except MLRunError Store :=
  if s.any (fun q => q.metadata.name == p.metadata.name) then
    Except.error MLRunError.conflict
  else
    Except.ok (s ++ [p])

/-- `Member.create_project`.  Validation is the shared `_validate_project`
helper (modelled from the spec as the predicate `validate`).  A leader-
originated create goes straight to the crud; otherwise the create is forwarded
to the Leader Client and, when it did not run in the background, the project
is re-read from the Local Store (with a fresh session) and returned. -/
def Member.create_project (lc : LeaderClient) (validate : Project → Bool)
    (leader_name : String) (s : Store) (p : Project)
    (projects_role : Option String) :
    Except MLRunError (Option Project × Bool × Store) :=
  if !(validate p) then Except.error MLRunError.invalidArgument
  else if is_request_from_leader projects_role leader_name then
    match crud_create_project s p with
    | Except.ok s' => Except.ok (some p, false, s')
    | Except.error e => Except.error e
  else
    match lc.create_project s p with
    | (true, s') => Except.ok (none, true, s')
    | (false, s') =>
      match crud_get_project s' p.metadata.name with
      | Except.ok q => Except.ok (some q, false, s')
      | Except.error e => Except.error e

/-- `Member.store_project`: a leader-originated store goes straight to the
crud; otherwise a preliminary get routes not-found to the create path, and a
found row leads to a Leader Client update followed by a local re-read,
returned with a `false` backgrounded flag. -/
def Member.store_project (lc : LeaderClient) (validate : Project → Bool)
    (leader_name : String) (s : Store) (name : String) (p : Project)
    (projects_role : Option String) :
    Except MLRunError (Option Project × Bool × Store) :=
  if !(validate p) then Except.error MLRunError.invalidArgument
  else if is_request_from_leader projects_role leader_name then
    Except.ok (some p, false, Store.store_project s name p)
  else
    match crud_get_project s name with
    | Except.error MLRunError.notFound =>
      Member.create_project lc validate leader_name s p projects_role
    | Except.error e => Except.error e
    | Except.ok _ =>
      let s' := lc.update_project s name p
      match crud_get_project s' name with
      | Except.ok q => Except.ok (some q, false, s')
      | Except.error e => Except.error e

/-- `Member.get_project`: a plain Local Store read; the Leader Client and the
leader session play no part (the code body is
`server.api.crud.Projects().get_project(db_session, name)`). -/
def Member.get_project (lc : LeaderClient) (s : Store) (name : String)
    (leader_session : Option String) : Except MLRunError Project :=
  crud_get_project s name

/-! ### Concrete example inputs, used by witnesses and counterexamples -/

/-- An example project named `alice`, state online. -/
def pAlice : Project :=
  { metadata := { name := "alice", labels := [] },
    spec := { description := "a" },
    status := { state := ProjectState.online } }

/-- An example project named `alice` as the leader may report it: archived. -/
def pAliceLeaderArchived : Project :=
  { metadata := { name := "alice", labels := [] },
    spec := { description := "a" },
    status := { state := ProjectState.archived } }

/-- An example project named `bob`, state online. -/
def pBob : Project :=
  { metadata := { name := "bob", labels := [] },
    spec := { description := "b" },
    status := { state := ProjectState.online } }

/-- An example project named `carol`, state online. -/
def pCarol : Project :=
  { metadata := { name := "carol", labels := [] },
    spec := { description := "c" },
    status := { state := ProjectState.online } }

/-- An environment with no active deletion tasks and no patch failures. -/
def quietEnv (leader : Option Int → Except String (List Project × Option Int)) :
    SyncEnv :=
  { leader_list_projects := leader,
    activeTask := fun _ => false,
    patchFails := fun _ => false }

/-- The names of a project list, in order. -/
def namesOf (l : List Project) : List String :=
  l.map (fun p => p.metadata.name)

/-- The import-pass filter condition of `_store_projects_from_leader`, as a
named predicate: a leader project is kept (stored) when it is NOT the case
that (its state is non-terminal and its name is absent from the listed names)
or a background deletion task is active for its name. -/
def keepB (activeTask : String → Bool) (db_projects_names : List String)
    (lp : Project) : Bool :=
  !((!(ProjectState.terminal_states.contains lp.status.state)
      && !(db_projects_names.contains lp.metadata.name))
    || project_deletion_background_task_exists activeTask lp.metadata.name)

theorem store_projects_from_leader_eq (activeTask : String → Bool) (s : Store)
    (db_projects leader_projects : List Project) :
    store_projects_from_leader activeTask s db_projects leader_projects =
      (leader_projects.filter
        (keepB activeTask (namesOf db_projects))).foldl
        (fun st p => st.store_project p.metadata.name p) s := rfl

theorem archive_projects_missing_from_leader_eq (patchFails : String → Bool)
    (s : Store) (db_projects leader_projects : List Project) :
    archive_projects_missing_from_leader patchFails s db_projects
        leader_projects =
      (db_projects.filter (fun p =>
        !((namesOf leader_projects).contains p.metadata.name))).foldl
        (fun st p =>
          if patchFails p.metadata.name then st
          else st.patch_project p.metadata.name (setArchived p)) s := rfl

/-! ### Store lemmas -/

theorem lookup_map_replace (s : Store) (n : String) (p : Project)
    (hp : p.metadata.name = n) (m : String) :
    Store.lookup (s.map (fun q => if q.metadata.name == n then p else q)) m =
      (Store.lookup s m).map (fun q => if q.metadata.name == n then p else q) := by
  unfold Store.lookup
  rw [List.find?_map]
  have hfun : ((fun r => r.metadata.name == m) ∘
      (fun q => if q.metadata.name == n then p else q)) =
      (fun q => q.metadata.name == m) := by
    funext q
    by_cases h : q.metadata.name = n
    · simp [Function.comp, h, hp]
    · simp [Function.comp, h]
  rw [hfun]

theorem lookup_found_name {s : Store} {m : String} {q : Project}
    (h : Store.lookup s m = some q) : q.metadata.name = m := by
  have := List.find?_some h
  simpa using this

theorem lookup_mem {s : Store} {m : String} {q : Project}
    (h : Store.lookup s m = some q) : q ∈ s :=
  List.mem_of_find?_eq_some h

theorem lookup_eq_none_of_any_false (s : Store) (n : String)
    (h : (s.any (fun q => q.metadata.name == n)) = false) :
    Store.lookup s n = none := by
  unfold Store.lookup
  rw [List.find?_eq_none]
  intro x hx
  simp only [List.any_eq_false] at h
  exact h x hx

theorem lookup_isSome_of_any_true (s : Store) (n : String)
    (h : (s.any (fun q => q.metadata.name == n)) = true) :
    ∃ r, Store.lookup s n = some r := by
  apply Option.isSome_iff_exists.mp
  unfold Store.lookup
  rw [List.find?_isSome]
  rcases List.any_eq_true.mp h with ⟨q, hq, hqn⟩
  exact ⟨q, hq, hqn⟩

theorem lookup_store_project_self (s : Store) (n : String) (p : Project)
    (hp : p.metadata.name = n) :
    Store.lookup (Store.store_project s n p) n = some p := by
  unfold Store.store_project
  split
  next hany =>
    rw [lookup_map_replace s n p hp n]
    rcases lookup_isSome_of_any_true s n hany with ⟨r, hr⟩
    rw [hr]
    have hrn : (r.metadata.name == n) = true := by
      simp [lookup_found_name hr]
    show some (if r.metadata.name == n then p else r) = some p
    rw [hrn]
    simp
  next hany =>
    unfold Store.lookup
    rw [List.find?_append]
    have h1 : Store.lookup s n = none :=
      lookup_eq_none_of_any_false s n (by simpa using hany)
    unfold Store.lookup at h1
    rw [h1]
    simp [hp]

theorem lookup_store_project_other (s : Store) (n m : String) (p : Project)
    (hp : p.metadata.name = n) (hm : m ≠ n) :
    Store.lookup (Store.store_project s n p) m = Store.lookup s m := by
  unfold Store.store_project
  split
  next hany =>
    rw [lookup_map_replace s n p hp m]
    rcases hs : Store.lookup s m with _ | q
    · rfl
    · have hq : (q.metadata.name == n) = false := by
        rw [lookup_found_name hs]
        simp
        exact fun h => hm h
      show some (if q.metadata.name == n then p else q) = some q
      rw [hq]
      simp
  next hany =>
    unfold Store.lookup
    rw [List.find?_append]
    have h2 : List.find? (fun q => q.metadata.name == m) [p] = none := by
      simp [hp]
      exact fun h => hm h.symm
    rw [h2]
    cases List.find? (fun q => q.metadata.name == m) s <;> rfl

theorem lookup_patch_project_self (s : Store) (n : String) (p : Project)
    (hp : p.metadata.name = n) :
    Store.lookup (Store.patch_project s n p) n =
      (Store.lookup s n).map (fun _ => p) := by
  unfold Store.patch_project
  rw [lookup_map_replace s n p hp n]
  rcases hs : Store.lookup s n with _ | q
  · rfl
  · have hqn : (q.metadata.name == n) = true := by
      simp [lookup_found_name hs]
    show some (if q.metadata.name == n then p else q) = some p
    rw [hqn]
    simp

theorem lookup_patch_project_other (s : Store) (n m : String) (p : Project)
    (hp : p.metadata.name = n) (hm : m ≠ n) :
    Store.lookup (Store.patch_project s n p) m = Store.lookup s m := by
  unfold Store.patch_project
  rw [lookup_map_replace s n p hp m]
  rcases hs : Store.lookup s m with _ | q
  · rfl
  · have hq : (q.metadata.name == n) = false := by
      rw [lookup_found_name hs]
      simp
      exact fun h => hm h
    show some (if q.metadata.name == n then p else q) = some q
    rw [hq]
    simp

theorem setArchived_name (p : Project) :
    (setArchived p).metadata.name = p.metadata.name := rfl

theorem setArchived_state (p : Project) :
    (setArchived p).status.state = ProjectState.archived := rfl

theorem setArchived_idem (p : Project) :
    setArchived (setArchived p) = setArchived p := rfl

theorem setArchived_eq_self {p : Project}
    (h : p.status.state = ProjectState.archived) : setArchived p = p := by
  unfold setArchived
  rw [← h]

theorem namesOf_cons (a : Project) (t : List Project) :
    namesOf (a :: t) = a.metadata.name :: namesOf t := rfl

theorem mem_namesOf {l : List Project} {n : String} :
    n ∈ namesOf l ↔ ∃ p, p ∈ l ∧ p.metadata.name = n := by
  unfold namesOf
  rw [List.mem_map]

theorem contains_namesOf {l : List Project} {n : String} :
    ((namesOf l).contains n) = true ↔ n ∈ namesOf l := List.elem_iff

theorem find?_name_eq_none {l : List Project} {n : String}
    (h : n ∉ namesOf l) :
    l.find? (fun p => p.metadata.name == n) = none := by
  rw [List.find?_eq_none]
  intro x hx
  simp only [beq_iff_eq]
  intro hxn
  exact h (mem_namesOf.mpr ⟨x, hx, hxn⟩)

theorem name_not_mem_of_find?_none {l : List Project} {n : String}
    (h : l.find? (fun p => p.metadata.name == n) = none) :
    n ∉ namesOf l := by
  intro hmem
  rcases mem_namesOf.mp hmem with ⟨p, hp, hn⟩
  rw [List.find?_eq_none] at h
  exact h p hp (by simp [hn])

theorem name_mem_of_find?_some {l : List Project} {n : String} {p : Project}
    (h : l.find? (fun q => q.metadata.name == n) = some p) :
    p ∈ l ∧ p.metadata.name = n :=
  ⟨List.mem_of_find?_eq_some h, by simpa using List.find?_some h⟩

theorem find?_of_mem_nodup {l : List Project} {p : Project}
    (hnd : (namesOf l).Nodup) (hp : p ∈ l) :
    l.find? (fun q => q.metadata.name == p.metadata.name) = some p := by
  induction l with
  | nil => cases hp
  | cons a t ih =>
    rw [namesOf_cons] at hnd
    rcases List.nodup_cons.mp hnd with ⟨hna, hndt⟩
    rcases List.mem_cons.mp hp with rfl | hpt
    · exact List.find?_cons_of_pos t (by simp)
    · have hne : ¬(a.metadata.name == p.metadata.name) = true := by
        simp only [beq_iff_eq]
        intro heq
        rw [heq] at hna
        exact hna (mem_namesOf.mpr ⟨p, hpt, rfl⟩)
      rw [List.find?_cons_of_neg t hne]
      exact ih hndt hpt

theorem names_inj_of_nodup {l : List Project} {p q : Project}
    (hnd : (namesOf l).Nodup) (hp : p ∈ l) (hq : q ∈ l)
    (h : p.metadata.name = q.metadata.name) : p = q := by
  have h1 := find?_of_mem_nodup hnd hp
  have h2 := find?_of_mem_nodup hnd hq
  rw [h] at h1
  rw [h1] at h2
  exact Option.some.inj h2

theorem find?_filter_char {l : List Project} (pr : Project → Bool) (n : String)
    (hnd : (namesOf l).Nodup) :
    (l.filter pr).find? (fun p => p.metadata.name == n) =
      match l.find? (fun p => p.metadata.name == n) with
      | some p => if pr p then some p else none
      | none => none := by
  induction l with
  | nil => rfl
  | cons a t ih =>
    rw [namesOf_cons] at hnd
    rcases List.nodup_cons.mp hnd with ⟨hna, hndt⟩
    by_cases pa : pr a = true
    · rw [List.filter_cons_of_pos pa]
      by_cases han : a.metadata.name = n
      · rw [List.find?_cons_of_pos _ (by simp [han]),
            List.find?_cons_of_pos _ (by simp [han])]
        simp [pa]
      · rw [List.find?_cons_of_neg _ (by simp [han]),
            List.find?_cons_of_neg _ (by simp [han])]
        exact ih hndt
    · rw [List.filter_cons_of_neg pa]
      by_cases han : a.metadata.name = n
      · have ht : t.find? (fun p => p.metadata.name == n) = none :=
          find?_name_eq_none (han ▸ hna)
        rw [ih hndt, ht, List.find?_cons_of_pos _ (by simp [han])]
        simp [pa]
      · rw [List.find?_cons_of_neg _ (by simp [han])]
        exact ih hndt

/-! ### Fold characterization lemmas for the import and archive passes -/

theorem lookup_fold_store (l : List Project) (s : Store) (n : String)
    (hnd : (namesOf l).Nodup) :
    Store.lookup
        (l.foldl (fun st p => st.store_project p.metadata.name p) s) n =
      match l.find? (fun p => p.metadata.name == n) with
      | some p => some p
      | none => Store.lookup s n := by
  induction l generalizing s with
  | nil => rfl
  | cons a t ih =>
    rw [namesOf_cons] at hnd
    rcases List.nodup_cons.mp hnd with ⟨hna, hndt⟩
    rw [List.foldl_cons, ih _ hndt]
    by_cases han : a.metadata.name = n
    · have ht : t.find? (fun p => p.metadata.name == n) = none :=
        find?_name_eq_none (han ▸ hna)
      rw [ht, List.find?_cons_of_pos _ (by simp [han]), ← han]
      exact lookup_store_project_self s a.metadata.name a rfl
    · rw [List.find?_cons_of_neg _ (by simp [han])]
      have hstep : Store.lookup
          (Store.store_project s a.metadata.name a) n = Store.lookup s n :=
        lookup_store_project_other s a.metadata.name n a rfl
          (fun hh => han hh.symm)
      simp only [hstep]

theorem lookup_fold_patch (patchFails : String → Bool) (l : List Project)
    (s : Store) (n : String) (hnd : (namesOf l).Nodup) :
    Store.lookup
        (l.foldl (fun st p =>
          if patchFails p.metadata.name then st
          else st.patch_project p.metadata.name (setArchived p)) s) n =
      match l.find? (fun p => p.metadata.name == n) with
      | some p =>
        if patchFails n then Store.lookup s n
        else (Store.lookup s n).map (fun _ => setArchived p)
      | none => Store.lookup s n := by
  induction l generalizing s with
  | nil => rfl
  | cons a t ih =>
    rw [namesOf_cons] at hnd
    rcases List.nodup_cons.mp hnd with ⟨hna, hndt⟩
    rw [List.foldl_cons, ih _ hndt]
    by_cases han : a.metadata.name = n
    · have ht : t.find? (fun p => p.metadata.name == n) = none :=
        find?_name_eq_none (han ▸ hna)
      rw [ht, List.find?_cons_of_pos _ (by simp [han]), ← han]
      rcases hf : patchFails a.metadata.name with _ | _
      · simp only [hf, Bool.false_eq_true, if_false]
        exact lookup_patch_project_self s a.metadata.name (setArchived a) rfl
      · simp [hf]
    · rw [List.find?_cons_of_neg _ (by simp [han])]
      have hstep : Store.lookup
          (if patchFails a.metadata.name then s
           else s.patch_project a.metadata.name (setArchived a)) n =
          Store.lookup s n := by
        rcases hf : patchFails a.metadata.name with _ | _
        · simp only [hf, Bool.false_eq_true, if_false]
          exact lookup_patch_project_other s a.metadata.name n
            (setArchived a) rfl (fun hh => han hh.symm)
        · simp [hf]
      simp only [hstep]

/-! ### Name-set and uniqueness preservation -/

theorem contains_namesOf_true {l : List Project} {n : String}
    (h : n ∈ namesOf l) : ((namesOf l).contains n) = true :=
  contains_namesOf.mpr h

theorem contains_namesOf_false {l : List Project} {n : String}
    (h : n ∉ namesOf l) : ((namesOf l).contains n) = false := by
  rcases hc : ((namesOf l).contains n) with _ | _
  · rfl
  · exact absurd (contains_namesOf.mp hc) h

theorem nodup_namesOf_filter {l : List Project} (pr : Project → Bool)
    (hnd : (namesOf l).Nodup) : (namesOf (l.filter pr)).Nodup :=
  List.Nodup.sublist (List.Sublist.map _ (List.filter_sublist l)) hnd

theorem namesOf_map_replace (s : Store) (m : String) (p : Project)
    (hp : p.metadata.name = m) :
    namesOf (s.map (fun q => if q.metadata.name == m then p else q)) =
      namesOf s := by
  unfold namesOf
  rw [List.map_map]
  apply List.map_congr_left
  intro q hq
  by_cases h : q.metadata.name = m
  · simp [Function.comp, h, hp]
  · simp [Function.comp, h]

theorem namesOf_store_project (s : Store) (m : String) (p : Project)
    (hp : p.metadata.name = m) :
    namesOf (Store.store_project s m p) =
      if s.any (fun q => q.metadata.name == m) then namesOf s
      else namesOf s ++ [m] := by
  unfold Store.store_project
  split
  next hany => exact namesOf_map_replace s m p hp
  next hany =>
    unfold namesOf
    rw [List.map_append]
    simp [hp]

theorem mem_namesOf_store_project (s : Store) (m : String) (p : Project)
    (hp : p.metadata.name = m) (n : String) :
    n ∈ namesOf (Store.store_project s m p) ↔ n = m ∨ n ∈ namesOf s := by
  rw [namesOf_store_project s m p hp]
  split
  next hany =>
    constructor
    · exact Or.inr
    · rintro (rfl | hmem)
      · rcases List.any_eq_true.mp hany with ⟨q, hq, hqm⟩
        exact mem_namesOf.mpr ⟨q, hq, by simpa using hqm⟩
      · exact hmem
  next hany =>
    rw [List.mem_append]
    simp [or_comm]

theorem nodup_namesOf_store_project (s : Store) (m : String) (p : Project)
    (hp : p.metadata.name = m) (hnd : (namesOf s).Nodup) :
    (namesOf (Store.store_project s m p)).Nodup := by
  rw [namesOf_store_project s m p hp]
  split
  next hany => exact hnd
  next hany =>
    have hm : m ∉ namesOf s := by
      intro hmem
      rcases mem_namesOf.mp hmem with ⟨q, hq, hqm⟩
      rw [Bool.not_eq_true, List.any_eq_false] at hany
      exact hany q hq (by simp [hqm])
    simp [List.nodup_append, hnd, hm]

theorem namesOf_patch_project (s : Store) (m : String) (p : Project)
    (hp : p.metadata.name = m) :
    namesOf (Store.patch_project s m p) = namesOf s :=
  namesOf_map_replace s m p hp

theorem mem_namesOf_fold_store (l : List Project) (s : Store) (n : String) :
    n ∈ namesOf
        (l.foldl (fun st p => Store.store_project st p.metadata.name p) s) ↔
      n ∈ namesOf l ∨ n ∈ namesOf s := by
  induction l generalizing s with
  | nil => simp [namesOf]
  | cons a t ih =>
    rw [List.foldl_cons, ih, namesOf_cons, List.mem_cons,
      mem_namesOf_store_project s a.metadata.name a rfl n]
    tauto

theorem nodup_namesOf_fold_store (l : List Project) (s : Store)
    (hnd : (namesOf s).Nodup) :
    (namesOf
      (l.foldl (fun st p => Store.store_project st p.metadata.name p) s)).Nodup := by
  induction l generalizing s with
  | nil => exact hnd
  | cons a t ih =>
    rw [List.foldl_cons]
    exact ih _ (nodup_namesOf_store_project s a.metadata.name a rfl hnd)

theorem namesOf_fold_patch (patchFails : String → Bool) (l : List Project)
    (s : Store) :
    namesOf (l.foldl (fun st p =>
      if patchFails p.metadata.name then st
      else Store.patch_project st p.metadata.name (setArchived p)) s) =
      namesOf s := by
  induction l generalizing s with
  | nil => rfl
  | cons a t ih =>
    rw [List.foldl_cons, ih]
    rcases hf : patchFails a.metadata.name with _ | _
    · simp only [hf, Bool.false_eq_true, if_false]
      exact namesOf_patch_project s a.metadata.name (setArchived a) rfl
    · simp [hf]

/-! ### Sync-cycle characterization -/

theorem list_from_leader_ok {env : SyncEnv} {c : Option Int}
    {r : List Project × Option Int}
    (h : env.leader_list_projects c = Except.ok r) :
    list_projects_from_leader env c = Except.ok r := by
  unfold list_projects_from_leader
  rw [h]

theorem sync_ok_parts {env : SyncEnv} {st : SyncState} {full_sync : Bool}
    {ps : List Project} {t : Option Int} {st' : SyncState}
    (hlc1 : env.leader_list_projects st.synced_until = Except.ok (ps, t))
    (h : sync_projects env st full_sync = Except.ok st') :
    st'.store =
      (if full_sync then
        archive_projects_missing_from_leader env.patchFails
          (store_projects_from_leader env.activeTask st.store st.store ps)
          st.store ps
      else store_projects_from_leader env.activeTask st.store st.store ps) ∧
    st'.synced_until =
      update_latest_synced_datetime st.synced_until t := by
  unfold sync_projects at h
  rw [list_from_leader_ok hlc1] at h
  have h2 := Except.ok.inj h
  exact ⟨(congrArg SyncState.store h2).symm,
    (congrArg SyncState.synced_until h2).symm⟩

theorem sync_store_nodup {env : SyncEnv} {st : SyncState} {full_sync : Bool}
    {ps : List Project} {t : Option Int} {st' : SyncState}
    (hlc1 : env.leader_list_projects st.synced_until = Except.ok (ps, t))
    (hndD : (namesOf st.store).Nodup)
    (h : sync_projects env st full_sync = Except.ok st') :
    (namesOf st'.store).Nodup := by
  rw [(sync_ok_parts hlc1 h).1]
  have h1 : (namesOf
      (store_projects_from_leader env.activeTask st.store st.store ps)).Nodup := by
    rw [store_projects_from_leader_eq]
    exact nodup_namesOf_fold_store _ _ hndD
  cases full_sync with
  | false => exact h1
  | true =>
    simp only [if_true]
    rw [archive_projects_missing_from_leader_eq, namesOf_fold_patch]
    exact h1

theorem sync_lookup_char {env : SyncEnv} {st : SyncState} {full_sync : Bool}
    {ps : List Project} {t : Option Int} {st' : SyncState}
    (hlc1 : env.leader_list_projects st.synced_until = Except.ok (ps, t))
    (hndD : (namesOf st.store).Nodup) (hndN : (namesOf ps).Nodup)
    (h : sync_projects env st full_sync = Except.ok st') (n : String) :
    Store.lookup st'.store n =
      match ps.find? (fun p => p.metadata.name == n) with
      | some lp =>
        if keepB env.activeTask (namesOf st.store) lp then some lp
        else Store.lookup st.store n
      | none =>
        match Store.lookup st.store n with
        | none => none
        | some q =>
          if full_sync && !(env.patchFails n) then some (setArchived q)
          else some q := by
  rw [(sync_ok_parts hlc1 h).1]
  have himport : Store.lookup
      (store_projects_from_leader env.activeTask st.store st.store ps) n =
      match ps.find? (fun p => p.metadata.name == n) with
      | some lp =>
        if keepB env.activeTask (namesOf st.store) lp then some lp
        else Store.lookup st.store n
      | none => Store.lookup st.store n := by
    rw [store_projects_from_leader_eq,
      lookup_fold_store _ _ n
        (nodup_namesOf_filter (keepB env.activeTask (namesOf st.store)) hndN),
      find?_filter_char (keepB env.activeTask (namesOf st.store)) n hndN]
    cases hfind : ps.find? (fun p => p.metadata.name == n) with
    | some lp =>
      rcases hk : keepB env.activeTask (namesOf st.store) lp with _ | _
      · simp [hk]
      · simp [hk]
    | none => rfl
  cases full_sync with
  | false =>
    simp only [Bool.false_eq_true, if_false]
    rw [himport]
    cases hfind : ps.find? (fun p => p.metadata.name == n) with
    | some lp => rfl
    | none =>
      cases hlk : Store.lookup st.store n with
      | none => rfl
      | some q => simp
  | true =>
    simp only [if_true]
    rw [archive_projects_missing_from_leader_eq,
      lookup_fold_patch env.patchFails _ _ n
        (nodup_namesOf_filter _ hndD),
      find?_filter_char (fun p =>
        !((namesOf ps).contains p.metadata.name)) n hndD]
    cases hfind : ps.find? (fun p => p.metadata.name == n) with
    | some lp =>
      have hnN : n ∈ namesOf ps := by
        rcases name_mem_of_find?_some hfind with ⟨hmem, hname⟩
        exact mem_namesOf.mpr ⟨lp, hmem, hname⟩
      have himp : Store.lookup
          (store_projects_from_leader env.activeTask st.store st.store ps) n =
          (if keepB env.activeTask (namesOf st.store) lp then some lp
           else Store.lookup st.store n) := by
        rw [himport, hfind]
      cases hlk : Store.lookup st.store n with
      | none =>
        rw [show (st.store.find? fun p => p.metadata.name == n) = none
          from hlk]
        simp [himp, hlk]
      | some q =>
        have hqn : q.metadata.name = n := lookup_found_name hlk
        have hpr : (!((namesOf ps).contains q.metadata.name)) = false := by
          rw [hqn, contains_namesOf_true hnN]
          rfl
        rw [show (st.store.find? fun p => p.metadata.name == n) = some q
          from hlk]
        simp [hpr, himp, hlk, hqn, hnN]
    | none =>
      have hnN : n ∉ namesOf ps := name_not_mem_of_find?_none hfind
      have himp2 : Store.lookup
          (store_projects_from_leader env.activeTask st.store st.store ps) n =
          Store.lookup st.store n := by
        rw [himport, hfind]
      cases hlk : Store.lookup st.store n with
      | none =>
        rw [show (st.store.find? fun p => p.metadata.name == n) = none
          from hlk]
        simp [himp2, hlk]
      | some q =>
        have hqn : q.metadata.name = n := lookup_found_name hlk
        have hpr : (!((namesOf ps).contains q.metadata.name)) = true := by
          rw [hqn, contains_namesOf_false hnN]
          rfl
        rw [show (st.store.find? fun p => p.metadata.name == n) = some q
          from hlk]
        rcases hpf : env.patchFails n with _ | _
        · simp [hpr, hpf, himp2, hlk, hqn, hnN]
        · simp [hpr, hpf, himp2, hlk, hqn, hnN]

theorem sync_lookup_found {env : SyncEnv} {st : SyncState} {full_sync : Bool}
    {ps : List Project} {t : Option Int} {st' : SyncState}
    (hlc1 : env.leader_list_projects st.synced_until = Except.ok (ps, t))
    (hndD : (namesOf st.store).Nodup) (hndN : (namesOf ps).Nodup)
    (h : sync_projects env st full_sync = Except.ok st') {n : String}
    {lp : Project}
    (hfind : ps.find? (fun p => p.metadata.name == n) = some lp) :
    Store.lookup st'.store n =
      (if keepB env.activeTask (namesOf st.store) lp then some lp
       else Store.lookup st.store n) := by
  rw [sync_lookup_char hlc1 hndD hndN h n, hfind]

theorem sync_lookup_notfound_some {env : SyncEnv} {st : SyncState}
    {full_sync : Bool} {ps : List Project} {t : Option Int} {st' : SyncState}
    (hlc1 : env.leader_list_projects st.synced_until = Except.ok (ps, t))
    (hndD : (namesOf st.store).Nodup) (hndN : (namesOf ps).Nodup)
    (h : sync_projects env st full_sync = Except.ok st') {n : String}
    {q : Project}
    (hfind : ps.find? (fun p => p.metadata.name == n) = none)
    (hq : Store.lookup st.store n = some q) :
    Store.lookup st'.store n =
      (if full_sync && !(env.patchFails n) then some (setArchived q)
       else some q) := by
  rw [sync_lookup_char hlc1 hndD hndN h n, hfind, hq]

theorem sync_lookup_notfound_none {env : SyncEnv} {st : SyncState}
    {full_sync : Bool} {ps : List Project} {t : Option Int} {st' : SyncState}
    (hlc1 : env.leader_list_projects st.synced_until = Except.ok (ps, t))
    (hndD : (namesOf st.store).Nodup) (hndN : (namesOf ps).Nodup)
    (h : sync_projects env st full_sync = Except.ok st') {n : String}
    (hfind : ps.find? (fun p => p.metadata.name == n) = none)
    (hq : Store.lookup st.store n = none) :
    Store.lookup st'.store n = none := by
  rw [sync_lookup_char hlc1 hndD hndN h n, hfind, hq]

theorem lookup_isSome_iff {s : Store} {n : String} :
    (Store.lookup s n).isSome = true ↔ n ∈ namesOf s := by
  unfold Store.lookup
  rw [List.find?_isSome]
  constructor
  · rintro ⟨x, hx, hpx⟩
    exact mem_namesOf.mpr ⟨x, hx, by simpa using hpx⟩
  · intro hmem
    rcases mem_namesOf.mp hmem with ⟨x, hx, hxn⟩
    exact ⟨x, hx, by simp [hxn]⟩

theorem lookup_none_iff {s : Store} {n : String} :
    Store.lookup s n = none ↔ n ∉ namesOf s := by
  constructor
  · intro hnone hmem
    have := lookup_isSome_iff.mpr hmem
    rw [hnone] at this
    cases this
  · intro hmem
    rcases hlk : Store.lookup s n with _ | q
    · rfl
    · exact absurd (lookup_isSome_iff.mp (by rw [hlk]; rfl)) hmem

theorem update_latest_twice (c : Option Int) (t : Option Int) :
    update_latest_synced_datetime (update_latest_synced_datetime c t) t =
      update_latest_synced_datetime c t := by
  cases t <;> rfl

/-! ### Claim theorems -/

/-- C10: `get_project` always returns exactly the Local Store's record for the
given name and never contacts the Leader Client (the result is the same for
any Leader Client); for every pair of calls with the same store and name the
result is identical regardless of the `leader_session` argument. -/
theorem claim_C10 :
    ∀ (lc lc' : LeaderClient) (s : Store) (name : String)
      (ls ls' : Option String),
      Member.get_project lc s name ls = Member.get_project lc' s name ls' ∧
      Member.get_project lc s name ls = crud_get_project s name := by
  intro lc lc' s name ls ls'
  exact ⟨rfl, rfl⟩

/-- C9: when the leader returns a null `latest_updated_at`, the sync cycle
leaves the `synced_until` cursor unchanged, and the cursor-update step does
not modify anything else: the resulting store is exactly the output of
the import pass (and archive pass, on a full sync).  Moreover the cursor is
written only for a non-null value: `update_latest_synced_datetime c none = c`
for every cursor `c`. -/
theorem claim_C9 (env : SyncEnv) (st : SyncState) (full_sync : Bool)
    (ps : List Project)
    (hlc : list_projects_from_leader env st.synced_until = Except.ok (ps, none)) :
    (sync_projects env st full_sync = Except.ok
      { store :=
          (let db := Store.list_projects_full st.store
           let s1 := store_projects_from_leader env.activeTask st.store db ps
           if full_sync then
             archive_projects_missing_from_leader env.patchFails s1 db ps
           else s1),
        synced_until := st.synced_until }) ∧
    (∀ c : Option Int, update_latest_synced_datetime c none = c) := by
  constructor
  · unfold sync_projects
    rw [hlc]
    rfl
  · intro c
    rfl

/-- Witness for C9 at a concrete input: leader reports `alice` with a null
latest-updated-at; the cursor stays at `some 7`. -/
theorem claim_C9_witness :
    sync_projects (quietEnv (fun _ => Except.ok ([pAlice], none)))
        { store := [pAlice], synced_until := some 7 } false = Except.ok
      { store :=
          (let db := Store.list_projects_full [pAlice]
           let s1 := store_projects_from_leader
             (quietEnv (fun _ => Except.ok ([pAlice], none))).activeTask
             [pAlice] db [pAlice]
           if false then
             archive_projects_missing_from_leader
               (quietEnv (fun _ => Except.ok ([pAlice], none))).patchFails
               s1 db [pAlice]
           else s1),
        synced_until := some 7 } ∧
    (∀ c : Option Int, update_latest_synced_datetime c none = c) :=
  claim_C9 (quietEnv (fun _ => Except.ok ([pAlice], none)))
    { store := [pAlice], synced_until := some 7 } false [pAlice] rfl

/-- C7: `list_projects` denies access whenever leader-formatted output is
requested and the request is not attributable to the leader; when the request
is from the leader and leader format is requested, it returns the Local
Store's projects re-shaped per-project through the Leader Client's formatter;
otherwise it returns the Local Store's output in the requested native
format. -/
theorem claim_C7 (fmt : Project → LeaderProjectView) (leader_name : String)
    (s : Store) (format_ : ProjectsFormat) (projects_role : Option String) :
    (format_ = ProjectsFormat.leader →
      is_request_from_leader projects_role leader_name = false →
      Member.list_projects fmt leader_name s format_ projects_role =
        Except.error MLRunError.accessDenied) ∧
    (format_ = ProjectsFormat.leader →
      is_request_from_leader projects_role leader_name = true →
      Member.list_projects fmt leader_name s format_ projects_role =
        Except.ok (s.map (fun p => ProjectsOutputEntry.leader (fmt p)))) ∧
    (format_ ≠ ProjectsFormat.leader →
      Member.list_projects fmt leader_name s format_ projects_role =
        Except.ok (crud_list_projects s format_)) := by
  refine ⟨?_, ?_, ?_⟩
  · intro h1 h2
    subst h1
    simp [Member.list_projects, h2]
  · intro h1 h2
    subst h1
    simp [Member.list_projects, h2, crud_list_projects]
  · intro h1
    have hne : (format_ == ProjectsFormat.leader) = false := by
      cases format_ <;> simp_all
    simp [Member.list_projects, hne]

/-- Witness for C7 at concrete inputs: a non-leader caller asking for leader
format is denied; the leader gets formatter-shaped output; a full-format call
returns the native listing. -/
theorem claim_C7_witness :
    (Member.list_projects (fun p => { payload := p.metadata.name }) "iguazio"
      [pAlice] ProjectsFormat.leader none =
      Except.error MLRunError.accessDenied) ∧
    (Member.list_projects (fun p => { payload := p.metadata.name }) "iguazio"
      [pAlice] ProjectsFormat.leader (some "iguazio") =
      Except.ok [ProjectsOutputEntry.leader { payload := "alice" }]) ∧
    (Member.list_projects (fun p => { payload := p.metadata.name }) "iguazio"
      [pAlice] ProjectsFormat.full none =
      Except.ok (crud_list_projects [pAlice] ProjectsFormat.full)) := by
  refine ⟨?_, ?_, ?_⟩
  · exact (claim_C7 (fun p => { payload := p.metadata.name }) "iguazio"
      [pAlice] ProjectsFormat.leader none).1 rfl rfl
  · have h := (claim_C7 (fun p => { payload := p.metadata.name }) "iguazio"
      [pAlice] ProjectsFormat.leader (some "iguazio")).2.1 rfl rfl
    rw [h]
    rfl
  · exact (claim_C7 (fun p => { payload := p.metadata.name }) "iguazio"
      [pAlice] ProjectsFormat.full none).2.2 (by simp)

/-- C8: for a `store_project` call not from the leader: when the preliminary
get of the named project finds nothing, the call is routed to the create path
(the not-found error is not surfaced); when the get succeeds, an update is
forwarded to the Leader Client and the resulting row is re-read from the Local
Store and returned with a `false` backgrounded flag. -/
theorem claim_C8 (lc : LeaderClient) (validate : Project → Bool)
    (leader_name : String) (s : Store) (name : String) (p : Project)
    (projects_role : Option String)
    (hrole : is_request_from_leader projects_role leader_name = false)
    (hv : validate p = true) :
    (Store.lookup s name = none →
      Member.store_project lc validate leader_name s name p projects_role =
        Member.create_project lc validate leader_name s p projects_role) ∧
    (∀ q r, Store.lookup s name = some q →
      Store.lookup (lc.update_project s name p) name = some r →
      Member.store_project lc validate leader_name s name p projects_role =
        Except.ok (some r, false, lc.update_project s name p)) := by
  constructor
  · intro hnone
    simp [Member.store_project, hv, hrole, crud_get_project, hnone]
  · intro q r hq hr
    simp [Member.store_project, hv, hrole, crud_get_project, hq, hr]

/-- Witness for C8 at concrete inputs: a missing `carol` routes to the create
path; an existing `alice` is updated through the Leader Client and re-read. -/
theorem claim_C8_witness :
    (Member.store_project
        { create_project := fun s p => (false, s ++ [p]),
          update_project := fun s n p => Store.store_project s n p }
        (fun _ => true) "iguazio" [pAlice] "carol" pCarol none =
      Member.create_project
        { create_project := fun s p => (false, s ++ [p]),
          update_project := fun s n p => Store.store_project s n p }
        (fun _ => true) "iguazio" [pAlice] pCarol none) ∧
    (Member.store_project
        { create_project := fun s p => (false, s ++ [p]),
          update_project := fun s n p => Store.store_project s n p }
        (fun _ => true) "iguazio" [pAlice] "alice" pAliceLeaderArchived none =
      Except.ok (some pAliceLeaderArchived, false, [pAliceLeaderArchived])) := by
  constructor
  · exact (claim_C8
      { create_project := fun s p => (false, s ++ [p]),
        update_project := fun s n p => Store.store_project s n p }
      (fun _ => true) "iguazio" [pAlice] "carol" pCarol none rfl rfl).1 rfl
  · exact (claim_C8
      { create_project := fun s p => (false, s ++ [p]),
        update_project := fun s n p => Store.store_project s n p }
      (fun _ => true) "iguazio" [pAlice] "alice" pAliceLeaderArchived none rfl
      rfl).2 pAlice pAliceLeaderArchived rfl rfl

/-- C5: if the leader list call filtered by the current cursor fails, the
Synchronizer retries exactly once with no filter instead of propagating the
first error; if the unfiltered retry also fails, the whole sync cycle aborts
with the retry's error — and, the cycle being aborted before any store or
cursor write, no partial state is committed (`sync_projects` returns an error
and no new `SyncState`). -/
theorem claim_C5 (env : SyncEnv) (st : SyncState) (e1 : String)
    (h1 : env.leader_list_projects st.synced_until = Except.error e1) :
    (∀ e2, env.leader_list_projects none = Except.error e2 →
      ∀ full_sync, sync_projects env st full_sync = Except.error e2) ∧
    (∀ r, env.leader_list_projects none = Except.ok r →
      list_projects_from_leader env st.synced_until = Except.ok r) := by
  constructor
  · intro e2 h2 full_sync
    unfold sync_projects list_projects_from_leader
    rw [h1, h2]
  · intro r h2
    unfold list_projects_from_leader
    rw [h1, h2]

/-- Witness for C5 at concrete inputs: with both calls failing the cycle
aborts with the retry's error; with the retry succeeding the fetch yields the
retry's result. -/
theorem claim_C5_witness :
    (sync_projects
        (quietEnv (fun f => match f with
          | some _ => Except.error "first"
          | none => Except.error "again"))
        { store := [], synced_until := some 0 } true = Except.error "again") ∧
    (list_projects_from_leader
        (quietEnv (fun f => match f with
          | some _ => Except.error "first"
          | none => Except.ok ([pAlice], some 3)))
        (some 0) = Except.ok ([pAlice], some 3)) := by
  constructor
  · exact (claim_C5
      (quietEnv (fun f => match f with
        | some _ => Except.error "first"
        | none => Except.error "again"))
      { store := [], synced_until := some 0 } "first" rfl).1 "again" rfl true
  · exact (claim_C5
      (quietEnv (fun f => match f with
        | some _ => Except.error "first"
        | none => Except.ok ([pAlice], some 3)))
      { store := [], synced_until := some 0 } "first" rfl).2
      ([pAlice], some 3) rfl

/-- C2 fails as stated: nothing in `_update_latest_synced_datetime` compares
the leader-returned value with the current cursor, so a later cycle whose
leader reports an older (post-epoch) `latest_updated_at` regresses the
cursor.  Here the first cycle sets the cursor to 5 and the second regresses
it to 3. -/
theorem claim_C2_cex :
    ((sync_projects
        (quietEnv (fun f => match f with
          | none => Except.ok ([], some 5)
          | some _ => Except.ok ([], some 3)))
        { store := [], synced_until := none } false).map
      (fun st => st.synced_until)) = Except.ok (some 5) ∧
    ((sync_projects
        (quietEnv (fun f => match f with
          | none => Except.ok ([], some 5)
          | some _ => Except.ok ([], some 3)))
        { store := [], synced_until := none } false).bind
      (fun st1 => sync_projects
        (quietEnv (fun f => match f with
          | none => Except.ok ([], some 5)
          | some _ => Except.ok ([], some 3)))
        st1 false)).map (fun st => st.synced_until) = Except.ok (some 3) ∧
    (3 : Int) < 5 := by
  exact ⟨rfl, rfl, by decide⟩

/-- C2 amended: within one process lifetime the cursor, whenever set, is ≥
the epoch (a pre-epoch leader value is floored to the epoch before being
stored, and a null value leaves the cursor unchanged); the cursor is monotone
across cycles provided each non-null leader-returned `latest_updated_at` is ≥
the current cursor value — without that assumption it can regress, though
never below the epoch. -/
theorem claim_C2 (env : SyncEnv) (st st' : SyncState) (full_sync : Bool)
    (ps : List Project) (t : Option Int)
    (hlc : list_projects_from_leader env st.synced_until = Except.ok (ps, t))
    (hsync : sync_projects env st full_sync = Except.ok st')
    (hepoch : ∀ u, st.synced_until = some u → 0 ≤ u)
    (hmono : ∀ v u, t = some v → st.synced_until = some u → u ≤ v) :
    (∀ u, st'.synced_until = some u → 0 ≤ u) ∧
    (∀ u u', st.synced_until = some u → st'.synced_until = some u' → u ≤ u') ∧
    (∀ v, t = some v →
      st'.synced_until = some (if v < 0 then 0 else v)) ∧
    (t = none → st'.synced_until = st.synced_until) := by
  unfold sync_projects at hsync
  rw [hlc] at hsync
  have hcur : st'.synced_until =
      update_latest_synced_datetime st.synced_until t :=
    (congrArg SyncState.synced_until (Except.ok.inj hsync)).symm
  cases t with
  | none =>
    refine ⟨?_, ?_, ?_, ?_⟩
    · intro u hu
      rw [hcur] at hu
      exact hepoch u hu
    · intro u u' hu hu'
      rw [hcur] at hu'
      unfold update_latest_synced_datetime at hu'
      rw [hu] at hu'
      injection hu' with h
      omega
    · intro v hv
      exact absurd hv (by simp)
    · intro _
      exact hcur
  | some v =>
    have hval : st'.synced_until = some (if v < 0 then 0 else v) := hcur
    refine ⟨?_, ?_, ?_, ?_⟩
    · intro u hu
      rw [hval] at hu
      injection hu with h
      omega
    · intro u u' hu hu'
      rw [hval] at hu'
      injection hu' with h
      have := hmono v u rfl hu
      omega
    · intro v' hv'
      injection hv' with h
      rw [← h]
      exact hval
    · intro h
      exact absurd h (by simp)

/-- Witness for C2 (amended) at a concrete input: cursor 2, leader reports 4;
the cursor does not regress and stays ≥ the epoch. -/
theorem claim_C2_witness :
    (∀ u, (SyncState.mk ([] : Store) (some 4)).synced_until = some u → 0 ≤ u) ∧
    (∀ u u', (SyncState.mk ([] : Store) (some 2)).synced_until = some u →
      (SyncState.mk ([] : Store) (some 4)).synced_until = some u' → u ≤ u') ∧
    (∀ v, (some (4 : Int) : Option Int) = some v →
      (SyncState.mk ([] : Store) (some 4)).synced_until =
        some (if v < 0 then 0 else v)) ∧
    ((some (4 : Int) : Option Int) = none →
      (SyncState.mk ([] : Store) (some 4)).synced_until =
        (SyncState.mk ([] : Store) (some 2)).synced_until) :=
  claim_C2 (quietEnv (fun _ => Except.ok ([], some 4)))
    { store := [], synced_until := some 2 }
    { store := [], synced_until := some 4 } false [] (some 4) rfl rfl
    (by intro u hu; injection hu with h; omega)
    (by intro v u hv hu; injection hv with h1; injection hu with h2; omega)

/-- C3 fails as stated: the import pass full-replaces rows with whatever the
leader reports, so an incremental (`full_sync = false`) cycle does change a
local project's state to archived when the leader reports that project as
archived.  Here local `alice` is online, the leader reports her archived, and
the incremental cycle leaves her archived. -/
theorem claim_C3_cex :
    ((Store.lookup [pAlice] "alice").map (fun p => p.status.state) =
      some ProjectState.online) ∧
    ((sync_projects (quietEnv (fun _ => Except.ok ([pAliceLeaderArchived], some 1)))
        { store := [pAlice], synced_until := none } false).map
      (fun st => (Store.lookup st.store "alice").map (fun p => p.status.state)) =
      Except.ok (some ProjectState.archived)) := by
  exact ⟨rfl, rfl⟩

/-- C1: in the import pass of a sync cycle, a leader project `lp` is skipped
(its row in the Local Store is left exactly as it was — neither created nor
overwritten) if and only if (a) its state is non-terminal and its name is not
among the project names listed from the Local Store at the start of the cycle,
or (b) a background deletion task of kind `project_deletion` or
`project_deletion_wrapper` for its name is active; every other leader project
is upserted with full-replace semantics — in particular a previously-archived
local row whose state the leader reports differently is replaced wholesale by
the leader record (resurrection). -/
theorem claim_C1 (activeTask : String → Bool) (s : Store) (ps : List Project)
    (hndN : (namesOf ps).Nodup) (lp : Project) (hlp : lp ∈ ps) :
    (((!(ProjectState.terminal_states.contains lp.status.state)
        && !((namesOf (Store.list_projects_full s)).contains lp.metadata.name))
      || project_deletion_background_task_exists activeTask lp.metadata.name)
        = true →
      Store.lookup (store_projects_from_leader activeTask s
          (Store.list_projects_full s) ps) lp.metadata.name =
        Store.lookup s lp.metadata.name) ∧
    (((!(ProjectState.terminal_states.contains lp.status.state)
        && !((namesOf (Store.list_projects_full s)).contains lp.metadata.name))
      || project_deletion_background_task_exists activeTask lp.metadata.name)
        = false →
      Store.lookup (store_projects_from_leader activeTask s
          (Store.list_projects_full s) ps) lp.metadata.name = some lp) := by
  have hchar : Store.lookup (store_projects_from_leader activeTask s
      (Store.list_projects_full s) ps) lp.metadata.name =
      (if keepB activeTask (namesOf (Store.list_projects_full s)) lp
       then some lp
       else Store.lookup s lp.metadata.name) := by
    rw [store_projects_from_leader_eq,
      lookup_fold_store _ _ _ (nodup_namesOf_filter _ hndN),
      find?_filter_char _ _ hndN, find?_of_mem_nodup hndN hlp]
    rcases hk : keepB activeTask (namesOf (Store.list_projects_full s)) lp
      with _ | _
    · simp [hk]
    · simp [hk]
  constructor
  · intro hskip
    rw [hchar]
    have hk : keepB activeTask (namesOf (Store.list_projects_full s)) lp
        = false := by
      unfold keepB
      rw [hskip]
      rfl
    rw [hk]
    simp
  · intro hskip
    rw [hchar]
    have hk : keepB activeTask (namesOf (Store.list_projects_full s)) lp
        = true := by
      unfold keepB
      rw [hskip]
      rfl
    rw [hk]
    simp

/-- Witness for C1 at concrete inputs: leader-reported `carol` (online, not
present locally, no deletion task) is skipped; leader-reported archived
`alice` (present locally as online) is upserted — the local row becomes the
leader's archived record. -/
theorem claim_C1_witness :
    (Store.lookup (store_projects_from_leader (fun _ => false) [pAlice]
        (Store.list_projects_full [pAlice]) [pCarol, pAliceLeaderArchived])
        "carol" = Store.lookup [pAlice] "carol") ∧
    (Store.lookup (store_projects_from_leader (fun _ => false) [pAlice]
        (Store.list_projects_full [pAlice]) [pCarol, pAliceLeaderArchived])
        "alice" = some pAliceLeaderArchived) := by
  constructor
  · exact (claim_C1 (fun _ => false) [pAlice] [pCarol, pAliceLeaderArchived]
      (by decide) pCarol (by decide)).1 (by decide)
  · exact (claim_C1 (fun _ => false) [pAlice] [pCarol, pAliceLeaderArchived]
      (by decide) pAliceLeaderArchived (by decide)).2 (by decide)

/-- C3 amended: (a) an incremental (`full_sync = false`) cycle never changes
a local project's state to archived unless the leader itself reports that
project's state as archived (the import pass full-replaces rows with leader
records); (b) a full-sync cycle — with no crud patch failures — merge-patches
to archived (status state set to archived, all other fields kept) exactly the
local projects whose names are absent from the leader list, while a
leader-present row ends archived only if it already was or the leader reports
it archived; (c) no project row is ever deleted by the Synchronizer. -/
theorem claim_C3 (env : SyncEnv) (st : SyncState) (full_sync : Bool)
    (ps : List Project) (t : Option Int) (st' : SyncState)
    (hlc1 : env.leader_list_projects st.synced_until = Except.ok (ps, t))
    (hndD : (namesOf st.store).Nodup) (hndN : (namesOf ps).Nodup)
    (h : sync_projects env st full_sync = Except.ok st') :
    (full_sync = false → ∀ n q q', Store.lookup st.store n = some q →
      Store.lookup st'.store n = some q' →
      q'.status.state = ProjectState.archived →
      q.status.state = ProjectState.archived ∨
      ∃ lp, lp ∈ ps ∧ lp.metadata.name = n ∧
        lp.status.state = ProjectState.archived) ∧
    (full_sync = true → (∀ m, env.patchFails m = false) →
      (∀ n q, Store.lookup st.store n = some q → n ∉ namesOf ps →
        Store.lookup st'.store n = some (setArchived q)) ∧
      (∀ n q q', Store.lookup st.store n = some q → n ∈ namesOf ps →
        Store.lookup st'.store n = some q' →
        q'.status.state = ProjectState.archived →
        q.status.state = ProjectState.archived ∨
        ∃ lp, lp ∈ ps ∧ lp.metadata.name = n ∧
          lp.status.state = ProjectState.archived)) ∧
    (∀ n, (Store.lookup st.store n).isSome = true →
      (Store.lookup st'.store n).isSome = true) := by
  refine ⟨?_, ?_, ?_⟩
  · rintro rfl n q q' hq hq' harch
    cases hfind : ps.find? (fun p => p.metadata.name == n) with
    | some lp =>
      rw [sync_lookup_found hlc1 hndD hndN h hfind] at hq'
      rcases name_mem_of_find?_some hfind with ⟨hmem, hname⟩
      rcases hk : keepB env.activeTask (namesOf st.store) lp with _ | _
      · rw [hk] at hq'
        simp only [Bool.false_eq_true, if_false] at hq'
        rw [hq] at hq'
        left
        rw [Option.some.inj hq']
        exact harch
      · rw [hk] at hq'
        simp only [if_true] at hq'
        right
        refine ⟨lp, hmem, hname, ?_⟩
        rw [Option.some.inj hq']
        exact harch
    | none =>
      rw [sync_lookup_notfound_some hlc1 hndD hndN h hfind hq] at hq'
      simp only [Bool.false_and, Bool.false_eq_true, if_false] at hq'
      left
      rw [Option.some.inj hq']
      exact harch
  · rintro rfl hnf
    constructor
    · intro n q hq hnotin
      rw [sync_lookup_notfound_some hlc1 hndD hndN h
        (find?_name_eq_none hnotin) hq]
      simp [hnf n]
    · intro n q q' hq hin hq' harch
      rcases mem_namesOf.mp hin with ⟨p0, hp0, hp0n⟩
      have hfind : ps.find? (fun p => p.metadata.name == n) = some p0 := by
        rw [← hp0n]
        exact find?_of_mem_nodup hndN hp0
      rw [sync_lookup_found hlc1 hndD hndN h hfind] at hq'
      rcases hk : keepB env.activeTask (namesOf st.store) p0 with _ | _
      · rw [hk] at hq'
        simp only [Bool.false_eq_true, if_false] at hq'
        rw [hq] at hq'
        left
        rw [Option.some.inj hq']
        exact harch
      · rw [hk] at hq'
        simp only [if_true] at hq'
        right
        refine ⟨p0, hp0, hp0n, ?_⟩
        rw [Option.some.inj hq']
        exact harch
  · intro n hsome
    rcases Option.isSome_iff_exists.mp hsome with ⟨q, hq⟩
    cases hfind : ps.find? (fun p => p.metadata.name == n) with
    | some lp =>
      rw [sync_lookup_found hlc1 hndD hndN h hfind]
      rcases hk : keepB env.activeTask (namesOf st.store) lp with _ | _
      · simp [hk, hq]
      · simp [hk]
    | none =>
      rw [sync_lookup_notfound_some hlc1 hndD hndN h hfind hq]
      rcases hpf : (full_sync && !(env.patchFails n)) with _ | _
      · simp [hpf]
      · simp [hpf]

/-- Witness for C3 (amended) at concrete inputs: leader reports only `alice`
(online); local store holds online `alice` and online `bob`.  A full sync
archives exactly `bob` (merge-patch to archived), `alice` stays online and no
row is deleted. -/
theorem claim_C3_witness :
    ((true : Bool) = false → ∀ n q q',
      Store.lookup (SyncState.mk [pAlice, pBob] none).store n = some q →
      Store.lookup (SyncState.mk
        [pAlice, setArchived pBob] (some 9)).store n = some q' →
      q'.status.state = ProjectState.archived →
      q.status.state = ProjectState.archived ∨
      ∃ lp, lp ∈ [pAlice] ∧ lp.metadata.name = n ∧
        lp.status.state = ProjectState.archived) ∧
    ((true : Bool) = true → (∀ m, (fun _ => false : String → Bool) m = false) →
      (∀ n q, Store.lookup (SyncState.mk [pAlice, pBob] none).store n =
          some q → n ∉ namesOf [pAlice] →
        Store.lookup (SyncState.mk
          [pAlice, setArchived pBob] (some 9)).store n =
          some (setArchived q)) ∧
      (∀ n q q', Store.lookup (SyncState.mk [pAlice, pBob] none).store n =
          some q → n ∈ namesOf [pAlice] →
        Store.lookup (SyncState.mk
          [pAlice, setArchived pBob] (some 9)).store n = some q' →
        q'.status.state = ProjectState.archived →
        q.status.state = ProjectState.archived ∨
        ∃ lp, lp ∈ [pAlice] ∧ lp.metadata.name = n ∧
          lp.status.state = ProjectState.archived)) ∧
    (∀ n, (Store.lookup (SyncState.mk [pAlice, pBob] none).store n).isSome
        = true →
      (Store.lookup (SyncState.mk
        [pAlice, setArchived pBob] (some 9)).store n).isSome = true) :=
  claim_C3 (quietEnv (fun _ => Except.ok ([pAlice], some 9)))
    (SyncState.mk [pAlice, pBob] none) true [pAlice] (some 9)
    (SyncState.mk [pAlice, setArchived pBob] (some 9))
    rfl (by decide) (by decide) rfl

/-- C6: in a full sync, for two distinct local projects `A` and `B` both
absent from the leader's list, if patching `A` to archived raises (the crud
patch failure oracle is true for `A`'s name) while `B`'s patch succeeds, the
exception is caught: `B` is still archived in the same cycle (`A`'s row is
left unchanged), the cycle completes, and the cursor is advanced as usual. -/
theorem claim_C6 (env : SyncEnv) (st : SyncState) (ps : List Project)
    (t : Option Int) (st' : SyncState) (A B : Project)
    (hlc1 : env.leader_list_projects st.synced_until = Except.ok (ps, t))
    (hndD : (namesOf st.store).Nodup) (hndN : (namesOf ps).Nodup)
    (hA : A ∈ st.store) (hB : B ∈ st.store)
    (hAB : A.metadata.name ≠ B.metadata.name)
    (hAN : A.metadata.name ∉ namesOf ps) (hBN : B.metadata.name ∉ namesOf ps)
    (hAfail : env.patchFails A.metadata.name = true)
    (hBok : env.patchFails B.metadata.name = false)
    (h : sync_projects env st true = Except.ok st') :
    Store.lookup st'.store B.metadata.name = some (setArchived B) ∧
    (Store.lookup st'.store B.metadata.name).map (fun p => p.status.state) =
      some ProjectState.archived ∧
    Store.lookup st'.store A.metadata.name = some A ∧
    st'.synced_until = update_latest_synced_datetime st.synced_until t := by
  have hqB : Store.lookup st.store B.metadata.name = some B :=
    find?_of_mem_nodup hndD hB
  have hqA : Store.lookup st.store A.metadata.name = some A :=
    find?_of_mem_nodup hndD hA
  have hvalB := sync_lookup_notfound_some hlc1 hndD hndN h
    (find?_name_eq_none hBN) hqB
  rw [hBok] at hvalB
  simp only [Bool.not_false, Bool.true_and, if_true] at hvalB
  have hvalA := sync_lookup_notfound_some hlc1 hndD hndN h
    (find?_name_eq_none hAN) hqA
  rw [hAfail] at hvalA
  simp only [Bool.not_true, Bool.and_false, Bool.false_eq_true, if_false]
    at hvalA
  refine ⟨hvalB, ?_, hvalA, (sync_ok_parts hlc1 h).2⟩
  rw [hvalB]
  rfl

/-- Witness for C6 at concrete inputs: leader reports nothing; local `alice`
and `bob` are both missing from the leader; patching `alice` raises but `bob`
is archived anyway and the cursor advances to 2. -/
theorem claim_C6_witness :
    Store.lookup (SyncState.mk
        [pAlice, setArchived pBob] (some 2)).store "bob" =
      some (setArchived pBob) ∧
    (Store.lookup (SyncState.mk
        [pAlice, setArchived pBob] (some 2)).store "bob").map
      (fun p => p.status.state) = some ProjectState.archived ∧
    Store.lookup (SyncState.mk
        [pAlice, setArchived pBob] (some 2)).store "alice" = some pAlice ∧
    (SyncState.mk [pAlice, setArchived pBob] (some 2)).synced_until =
      update_latest_synced_datetime none (some 2) :=
  claim_C6
    { leader_list_projects := fun _ => Except.ok ([], some 2),
      activeTask := fun _ => false,
      patchFails := fun n => n == "alice" }
    (SyncState.mk [pAlice, pBob] none) [] (some 2)
    (SyncState.mk [pAlice, setArchived pBob] (some 2)) pAlice pBob
    rfl (by decide) (by decide) (by decide) (by decide) (by decide)
    (by decide) (by decide) (by decide) (by decide) rfl

/-- C4: running a full sync twice in a row against an unchanged leader
response (same project list, unique names, and same `latest_updated_at`), with
no interleaving writes, is idempotent: after the second run every name looks
up to exactly the same row as after the first run, and the cursor is
unchanged — the second full sync is a no-op on observable store contents. -/
theorem claim_C4 (env : SyncEnv) (st st1 st2 : SyncState) (ps : List Project)
    (t : Option Int)
    (hlc : ∀ f, env.leader_list_projects f = Except.ok (ps, t))
    (hndD : (namesOf st.store).Nodup) (hndN : (namesOf ps).Nodup)
    (h1 : sync_projects env st true = Except.ok st1)
    (h2 : sync_projects env st1 true = Except.ok st2) :
    (∀ n, Store.lookup st2.store n = Store.lookup st1.store n) ∧
    st2.synced_until = st1.synced_until := by
  have hlc1 := hlc st.synced_until
  have hlc2 := hlc st1.synced_until
  have hndD1 : (namesOf st1.store).Nodup := sync_store_nodup hlc1 hndD h1
  constructor
  · intro n
    cases hfind : ps.find? (fun p => p.metadata.name == n) with
    | some lp =>
      rcases name_mem_of_find?_some hfind with ⟨hmem, hname⟩
      have hchar1 := sync_lookup_found hlc1 hndD hndN h1 hfind
      have hchar2 := sync_lookup_found hlc2 hndD1 hndN h2 hfind
      rcases hk : keepB env.activeTask (namesOf st.store) lp with _ | _
      · -- lp was skipped in the first run; it is skipped again.
        rw [hk] at hchar1
        simp only [Bool.false_eq_true, if_false] at hchar1
        have hk2 : keepB env.activeTask (namesOf st1.store) lp = false := by
          unfold keepB at hk ⊢
          rcases hdel : project_deletion_background_task_exists
              env.activeTask lp.metadata.name with _ | _
          · rw [hdel] at hk
            simp only [Bool.or_false] at hk
            rcases hT : ProjectState.terminal_states.contains lp.status.state
              with _ | _
            · rw [hT] at hk
              simp only [Bool.not_false, Bool.true_and] at hk
              rcases hc1 : (namesOf st.store).contains lp.metadata.name
                with _ | _
              · -- non-terminal and absent: still absent after run one.
                have hnotin : n ∉ namesOf st.store := by
                  intro hmemn
                  rw [← hname] at hmemn
                  rw [contains_namesOf_true hmemn] at hc1
                  cases hc1
                have hlk : Store.lookup st.store n = none :=
                  lookup_none_iff.mpr hnotin
                have h1none : Store.lookup st1.store n = none := by
                  rw [hchar1]
                  exact hlk
                have hnotin1 : n ∉ namesOf st1.store :=
                  lookup_none_iff.mp h1none
                have hc2 : (namesOf st1.store).contains lp.metadata.name
                    = false := by
                  rw [hname]
                  exact contains_namesOf_false hnotin1
                rw [hc2]
                rfl
              · rw [hc1] at hk
                cases hk
            · rw [hT] at hk
              cases hk
          · simp
        rw [hk2] at hchar2
        simp only [Bool.false_eq_true, if_false] at hchar2
        exact hchar2
      · -- lp was kept in the first run; it is kept again.
        rw [hk] at hchar1
        simp only [if_true] at hchar1
        have hk2 : keepB env.activeTask (namesOf st1.store) lp = true := by
          unfold keepB at hk ⊢
          rcases hdel : project_deletion_background_task_exists
              env.activeTask lp.metadata.name with _ | _
          · rw [hdel] at hk
            simp only [Bool.or_false] at hk
            rcases hT : ProjectState.terminal_states.contains lp.status.state
              with _ | _
            · rw [hT] at hk
              simp only [Bool.not_false, Bool.true_and] at hk
              have hc1 : (namesOf st.store).contains lp.metadata.name
                  = true := by
                rcases hc1' : (namesOf st.store).contains lp.metadata.name
                  with _ | _
                · rw [hc1'] at hk
                  cases hk
                · rfl
              have hin1 : n ∈ namesOf st1.store := by
                apply lookup_isSome_iff.mp
                rw [hchar1]
                rfl
              have hc2 : (namesOf st1.store).contains lp.metadata.name
                  = true := by
                rw [hname]
                exact contains_namesOf_true hin1
              rw [hc2]
              rfl
            · rfl
          · rw [hdel] at hk
            simp at hk
        rw [hk2] at hchar2
        simp only [if_true] at hchar2
        rw [hchar2, hchar1]
    | none =>
      cases hlk : Store.lookup st.store n with
      | none =>
        have e1 := sync_lookup_notfound_none hlc1 hndD hndN h1 hfind hlk
        have e2 := sync_lookup_notfound_none hlc2 hndD1 hndN h2 hfind e1
        rw [e2, e1]
      | some q =>
        have e1 := sync_lookup_notfound_some hlc1 hndD hndN h1 hfind hlk
        rcases hpf : env.patchFails n with _ | _
        · rw [hpf] at e1
          simp only [Bool.not_false, Bool.true_and, if_true] at e1
          have e2 := sync_lookup_notfound_some hlc2 hndD1 hndN h2 hfind e1
          rw [hpf] at e2
          simp only [Bool.not_false, Bool.true_and, if_true] at e2
          rw [e2, e1, setArchived_idem]
        · rw [hpf] at e1
          simp only [Bool.not_true, Bool.and_false, Bool.false_eq_true,
            if_false] at e1
          have e2 := sync_lookup_notfound_some hlc2 hndD1 hndN h2 hfind e1
          rw [hpf] at e2
          simp only [Bool.not_true, Bool.and_false, Bool.false_eq_true,
            if_false] at e2
          rw [e2, e1]
  · rw [(sync_ok_parts hlc2 h2).2, (sync_ok_parts hlc1 h1).2,
      update_latest_twice]

/-- Witness for C4 at concrete inputs: leader constantly reports online
`alice` with `latest_updated_at = 9`; the store holds `alice` and `bob`.  The
first full sync archives `bob` and sets the cursor to 9; the second changes
nothing observable. -/
theorem claim_C4_witness :
    (∀ n, Store.lookup (SyncState.mk
        [pAlice, setArchived pBob] (some 9)).store n =
      Store.lookup (SyncState.mk
        [pAlice, setArchived pBob] (some 9)).store n) ∧
    (SyncState.mk [pAlice, setArchived pBob] (some 9)).synced_until =
      (SyncState.mk [pAlice, setArchived pBob] (some 9)).synced_until :=
  claim_C4 (quietEnv (fun _ => Except.ok ([pAlice], some 9)))
    (SyncState.mk [pAlice, pBob] none)
    (SyncState.mk [pAlice, setArchived pBob] (some 9))
    (SyncState.mk [pAlice, setArchived pBob] (some 9))
    [pAlice] (some 9) (fun _ => rfl) (by decide) (by decide) rfl rfl

end Follower
